import Mathlib

set_option maxRecDepth 2000

/-!
Verification development for the water-intake log and analytics engine of
the TalkHeal repository (core/water_tracker.py).

Modelling conventions (shallow embedding):
* A calendar date key (the Python ISO string YYYY-MM-DD) is modelled by the
  structure Date with numeric year/month/day fields.  For well-formed ISO
  strings the lexicographic string order used by sorted(data.keys()) agrees
  with the lexicographic order on (year, month, day), which is the order
  we define on Date.
* A water-log dictionary (Python dict preserving insertion order, keys
  unique) is modelled by an association list List (Date x List Entry); the
  uniqueness of the keys is the Nodup hypothesis threaded where needed.
* Numeric amounts (Python int/float) are modelled by the rationals.
* The ambient value datetime.date.today() is passed explicitly as a
  parameter named today.
-/

/-- Calendar date, modelling the ISO YYYY-MM-DD date keys of the log. -/
structure Date where
  year : Nat
  month : Nat
  day : Nat
deriving DecidableEq

/-- Lexicographic strict order on dates; on valid dates this coincides with
the lexicographic order of their ISO strings used by Python sorted(). -/
def Date.lt (a b : Date) : Prop :=
  a.year < b.year ∨ (a.year = b.year ∧
    (a.month < b.month ∨ (a.month = b.month ∧ a.day < b.day)))

instance : LT Date := ⟨Date.lt⟩

instance (a b : Date) : Decidable (a < b) :=
  inferInstanceAs (Decidable (a.year < b.year ∨ (a.year = b.year ∧
    (a.month < b.month ∨ (a.month = b.month ∧ a.day < b.day)))))

/-- Non-strict order on dates. -/
def Date.le (a b : Date) : Prop := a < b ∨ a = b

instance : LE Date := ⟨Date.le⟩

instance (a b : Date) : Decidable (a ≤ b) :=
  inferInstanceAs (Decidable (a < b ∨ a = b))

/-- Leap-year rule, as in Python calendar.isleap. -/
def isLeapYear (y : Nat) : Bool :=
  (y % 4 == 0 && y % 100 != 0) || (y % 400 == 0)

/-- Number of days in a month, as returned by calendar.monthrange(y, m)[1]
(modelled from the Python standard library calendar module). -/
def daysInMonth (y m : Nat) : Nat :=
  if m = 2 then (if isLeapYear y then 29 else 28)
  else if m = 4 ∨ m = 6 ∨ m = 9 ∨ m = 11 then 30
  else 31

/-- The previous calendar day, modelling date - timedelta(days=1). -/
def prevDate (d : Date) : Date :=
  if 1 < d.day then ⟨d.year, d.month, d.day - 1⟩
  else if 1 < d.month then ⟨d.year, d.month - 1, daysInMonth d.year (d.month - 1)⟩
  else ⟨d.year - 1, 12, 31⟩

/-- Walking back i calendar days, modelling date - timedelta(days=i). -/
def prevIter : Nat → Date → Date
  | 0, d => d
  | n + 1, d => prevIter n (prevDate d)

/-- One logged event: amount in ml, ISO timestamp, optional note
(a Python entry dict that was created without a note key has note none). -/
structure Entry where
  amount : ℚ
  timestamp : String
  note : Option String
deriving DecidableEq

/-- The full water log: insertion-ordered mapping date -> entries,
modelling the JSON dict loaded from water_intake_log.json. -/
abbrev DailyLog := List (Date × List Entry)

/-- List of date keys, in insertion order (data.keys()). -/
def logKeys (log : DailyLog) : List Date := log.map Prod.fst

/-- Membership test for a date key, modelling the Python test
date_str in data. -/
def containsKey (log : DailyLog) (d : Date) : Bool :=
  decide (d ∈ logKeys log)

/-- Entries recorded under a date key, modelling data.get(date_str, []);
returns the first matching binding (keys are unique in a Python dict). -/
def entriesFor : DailyLog → Date → List Entry
  | [], _ => []
  | (k, es) :: rest, d => if k = d then es else entriesFor rest d

/-- Sum of the amounts of a list of entries,
sum(entry['amount_ml'] for entry in entries). -/
def entryTotal (es : List Entry) : ℚ := (es.map Entry.amount).sum

/-- Daily total for a date, modelling
sum(entry['amount_ml'] for entry in data.get(date_str, [])). -/
def dailyTotal (log : DailyLog) (d : Date) : ℚ := entryTotal (entriesFor log d)

/-- Append an entry to the list stored under an existing key, modelling
data[date_str].append(entry) on a dict that contains date_str. -/
def appendInPlace (d : Date) (e : Entry) : DailyLog → DailyLog
  | [] => []
  | (k, es) :: rest =>
    if k = d then (k, es ++ [e]) :: rest else (k, es) :: appendInPlace d e rest

/-- Append an entry under a date key, modelling the Python idiom
if date_str not in data: data[date_str] = [] followed by
data[date_str].append(entry). -/
def appendEntryTo (log : DailyLog) (d : Date) (e : Entry) : DailyLog :=
  if containsKey log d then appendInPlace d e log else log ++ [(d, [e])]

/-- Rows (date, total) for the trailing n calendar days ending today,
modelling get_last_n_days_totals: days = [today - timedelta(days=i) for i
in range(n-1, -1, -1)], then each day is paired with its total. -/
def get_last_n_days_totals (log : DailyLog) (today : Date) (n : Nat) :
    List (Date × ℚ) :=
  let days := (List.range n).reverse.map (fun i => prevIter i today)
  days.map (fun d => (d, dailyTotal log d))

/-- Bounded backward scan of get_streak_count: walk back from d counting
consecutive days whose total meets the goal, with fuel days left to
inspect (the range(365) loop body with its break). -/
def streakFrom (log : DailyLog) (goal : ℚ) : Date → Nat → Nat
  | _, 0 => 0
  | d, n + 1 =>
    if goal ≤ dailyTotal log d then streakFrom log goal (prevDate d) n + 1 else 0

/-- Current streak of consecutive days meeting the goal, including today,
modelling get_streak_count with its 365-day lookback. -/
def get_streak_count (log : DailyLog) (today : Date) (goal : ℚ) : Nat :=
  streakFrom log goal today 365

/-- Result shape of get_longest_streak. -/
structure StreakResult where
  length : Nat
  start_date : Option Date
  end_date : Option Date
deriving DecidableEq

/-- Loop state of get_longest_streak: max_streak, current_streak,
streak_start, max_streak_start, max_streak_end. -/
structure LSState where
  maxStreak : Nat
  curStreak : Nat
  streakStart : Option Date
  maxStart : Option Date
  maxEnd : Option Date
deriving DecidableEq

/-- One iteration of the get_longest_streak loop body for a date. -/
def lsStep (log : DailyLog) (goal : ℚ) (s : LSState) (d : Date) : LSState :=
  if goal ≤ dailyTotal log d then
    let start := if s.curStreak = 0 then some d else s.streakStart
    let cur := s.curStreak + 1
    if s.maxStreak < cur then ⟨cur, cur, start, start, some d⟩
    else ⟨s.maxStreak, cur, start, s.maxStart, s.maxEnd⟩
  else ⟨s.maxStreak, 0, none, s.maxStart, s.maxEnd⟩

/-- The log's date keys in ascending order, sorted(data.keys()). -/
def sortedKeys (log : DailyLog) : List Date :=
  (logKeys log).insertionSort (fun a b => a ≤ b)

/-- Longest streak of consecutive logged dates meeting the goal, modelling
get_longest_streak: early return on an empty dict, then a scan over the
sorted date keys. -/
def get_longest_streak (log : DailyLog) (goal : ℚ) : StreakResult :=
  if log.isEmpty then ⟨0, none, none⟩
  else
    let fin := (sortedKeys log).foldl (lsStep log goal) ⟨0, 0, none, none, none⟩
    ⟨fin.maxStreak, fin.maxStart, fin.maxEnd⟩

/-- Per-day totals for one month, modelling get_monthly_data:
for day in range(1, monthrange(year, month)[1] + 1). -/
def get_monthly_data (log : DailyLog) (y m : Nat) : List (Date × ℚ) :=
  (List.range (daysInMonth y m)).map (fun i => ((⟨y, m, i + 1⟩ : Date),
    dailyTotal log ⟨y, m, i + 1⟩))

/-- Result shape of get_monthly_statistics; days_in_month is only present
in the non-empty branch of the Python dict, hence an Option. -/
structure MonthlyStats where
  total : ℚ
  average : ℚ
  best_day : Option (Date × ℚ)
  worst_day : Option (Date × ℚ)
  days_logged : Nat
  days_in_month : Option Nat
deriving DecidableEq

/-- Python max(items, key=lambda x: x[1]): first item with maximal second
component (a later item replaces the current one only if strictly
greater). -/
def pyMaxBySnd : List (Date × ℚ) → Option (Date × ℚ)
  | [] => none
  | x :: xs => some (xs.foldl (fun acc y => if acc.2 < y.2 then y else acc) x)

/-- Python min(items, key=lambda x: x[1]): first item with minimal second
component. -/
def pyMinBySnd : List (Date × ℚ) → Option (Date × ℚ)
  | [] => none
  | x :: xs => some (xs.foldl (fun acc y => if y.2 < acc.2 then y else acc) x)

/-- Round-half-to-even at a given number of decimal places, modelling the
Python built-in round(x, prec) (idealized over the rationals). -/
def roundHalfEven (prec : Nat) (x : ℚ) : ℚ :=
  let p : ℚ := (10 : ℚ) ^ prec
  let m := x * p
  let f : ℤ := Int.floor m
  let frac := m - (f : ℚ)
  let r : ℤ :=
    if frac < 1/2 then f
    else if 1/2 < frac then f + 1
    else if Even f then f else f + 1
  (r : ℚ) / p

/-- Monthly statistics, modelling get_monthly_statistics. -/
def get_monthly_statistics (log : DailyLog) (y m : Nat) : MonthlyStats :=
  let month_data := get_monthly_data log y m
  let totals := (month_data.map Prod.snd).filter (fun a => decide (0 < a))
  if totals.isEmpty then ⟨0, 0, none, none, 0, none⟩
  else
    let best := pyMaxBySnd month_data
    let worst := pyMinBySnd (month_data.filter (fun p => decide (0 < p.2)))
    ⟨totals.sum, roundHalfEven 2 (totals.sum / (totals.length : ℚ)),
      best, worst, totals.length, some month_data.length⟩

/-- Result shape of get_all_time_statistics; the two early-return dicts of
the Python code carry no first/last_logged_date keys, hence the Option
fields are none there. -/
structure AllTimeStats where
  total_days_logged : Nat
  total_intake : ℚ
  average_per_day : ℚ
  best_day : Option (Date × ℚ)
  total_entries : Nat
  first_logged_date : Option Date
  last_logged_date : Option Date
deriving DecidableEq

/-- Python min over date keys: first minimal key. -/
def pyMinDate : List Date → Option Date
  | [] => none
  | x :: xs => some (xs.foldl (fun acc y => if y < acc then y else acc) x)

/-- Python max over date keys: first maximal key. -/
def pyMaxDate : List Date → Option Date
  | [] => none
  | x :: xs => some (xs.foldl (fun acc y => if acc < y then y else acc) x)

/-- Count of all entries across all dates. -/
def totalEntries (log : DailyLog) : Nat := (log.map (fun p => p.2.length)).sum

/-- All-time statistics, modelling get_all_time_statistics: iterate over
data.items(), keep (date, daily_total) pairs with positive total, count
every entry; first/last_logged_date come from min/max over data.keys(). -/
def get_all_time_statistics (log : DailyLog) : AllTimeStats :=
  if log.isEmpty then ⟨0, 0, 0, none, 0, none, none⟩
  else
    let all_totals := (log.map (fun p => (p.1, entryTotal p.2))).filter
      (fun p => decide (0 < p.2))
    if all_totals.isEmpty then ⟨0, 0, 0, none, 0, none, none⟩
    else
      let s := (all_totals.map Prod.snd).sum
      ⟨all_totals.length, s, roundHalfEven 2 (s / (all_totals.length : ℚ)),
        pyMaxBySnd all_totals, totalEntries log,
        pyMinDate (logKeys log), pyMaxDate (logKeys log)⟩

/-- Today's total, modelling get_today_total. -/
def get_today_total (log : DailyLog) (today : Date) : ℚ := dailyTotal log today

/-- Hydration percentage, modelling get_hydration_percentage:
round((today_total / daily_goal_ml) * 100, 1) if daily_goal_ml > 0 else 0. -/
def get_hydration_percentage (log : DailyLog) (today : Date) (goal : ℚ) : ℚ :=
  if 0 < goal then roundHalfEven 1 ((get_today_total log today / goal) * 100)
  else 0

/-- On-disk state of the durable document water_intake_log.json: the file
may be absent, present but rejected by json.load, or present and parsed
to a log (the json module is external to the repository; a content string
is abstracted to whether it parses). -/
inductive DiskDoc where
  | missing : DiskDoc
  | corrupt : DiskDoc
  | stored : DailyLog → DiskDoc
deriving DecidableEq

/-- The storage failure load_water_log propagates when json.load raises on
malformed content. -/
inductive StorageError where
  | malformedDocument : StorageError
deriving DecidableEq

/-- Load the water log, modelling load_water_log: a missing file yields an
empty dict (first run), malformed content raises out of the function
(json.load is not wrapped in a try), otherwise the stored log is
returned. -/
def load_water_log : DiskDoc → Except StorageError DailyLog
  | .missing => .ok []
  | .corrupt => .error .malformedDocument
  | .stored log => .ok log

/-- Save the water log, modelling save_water_log: the document is replaced
wholesale by the serialized log. -/
def save_water_log (log : DailyLog) (_disk : DiskDoc) : DiskDoc := .stored log

/-- One data row of the CSV interchange file as seen through
csv.DictReader: none in a field models a missing column; for the Amount
field none also models a cell that float() rejects. -/
structure CsvRow where
  date : Option Date
  timestamp : Option String
  amount : Option ℚ
  note : Option String
deriving DecidableEq

/-- Rows written by export_data_to_csv: one row per entry across
sorted(data.keys()), per-date insertion order preserved; the cells are
date_str, entry.get('timestamp', ''), entry.get('amount_ml', 0) and
entry.get('note', ''). -/
def export_rows (log : DailyLog) : List CsvRow :=
  (sortedKeys log).flatMap (fun d =>
    (entriesFor log d).map (fun e =>
      ⟨some d, some e.timestamp, some e.amount, some (e.note.getD "")⟩))

/-- Parse one CSV row as the import loop body does: row['Date'],
row['Timestamp'] and float(row['Amount (ml)']) raise on a missing column
or a non-numeric amount; row.get('Note', '') never raises. -/
def parseRow (r : CsvRow) : Option (Date × Entry) :=
  match r.date, r.timestamp, r.amount with
  | some d, some ts, some a => some (d, ⟨a, ts, some (r.note.getD "")⟩)
  | _, _, _ => none

/-- Merge the CSV rows into the loaded log, appending each entry under its
date key; none as soon as one row fails to parse (the raised exception
aborts the loop before any save). -/
def importRows (log : DailyLog) : List CsvRow → Option DailyLog
  | [] => some log
  | r :: rs =>
    match parseRow r with
    | none => none
    | some (d, e) => importRows (appendEntryTo log d e) rs

/-- Import from CSV, modelling import_data_from_csv: load the current log
(inside the try block, so a corrupt document is caught and yields False),
read the file, merge every row, then save once after the loop; any
failure is caught, returns False, and no save happens. -/
def import_data_from_csv (file : Option (List CsvRow)) (disk : DiskDoc) :
    Bool × DiskDoc :=
  match load_water_log disk with
  | .error _ => (false, disk)
  | .ok data =>
    match file with
    | none => (false, disk)
    | some rows =>
      match importRows data rows with
      | none => (false, disk)
      | some merged => (true, save_water_log merged disk)

/-- Note-field normalization performed by an export/import round trip:
amount and timestamp survive verbatim, an absent note becomes the empty
string. -/
def normalizeEntry (e : Entry) : Entry := ⟨e.amount, e.timestamp, some (e.note.getD "")⟩

instance : IsTrans Date (fun a b => a ≤ b) :=
  ⟨fun a b c h1 h2 => by
    rcases h1 with h1 | h1
    · rcases h2 with h2 | h2
      · refine Or.inl ?_
        have g1 : Date.lt a b := h1
        have g2 : Date.lt b c := h2
        show Date.lt a c
        unfold Date.lt at g1 g2 ⊢
        omega
      · exact Or.inl (h2 ▸ h1)
    · exact h1 ▸ h2⟩

instance : IsTotal Date (fun a b => a ≤ b) :=
  ⟨fun a b => by
    by_cases h : a < b
    · exact Or.inl (Or.inl h)
    · refine Or.inr ?_
      obtain ⟨y1, m1, e1⟩ := a
      obtain ⟨y2, m2, e2⟩ := b
      have h2 : ¬ Date.lt ⟨y1, m1, e1⟩ ⟨y2, m2, e2⟩ := h
      unfold Date.lt at h2
      dsimp only at h2
      by_cases he : (⟨y1, m1, e1⟩ : Date) = ⟨y2, m2, e2⟩
      · exact Or.inr he.symm
      · refine Or.inl ?_
        show Date.lt _ _
        unfold Date.lt
        dsimp only
        simp only [Date.mk.injEq] at he
        omega⟩

/-- Entry used by the 365-day cap counterexample for C3. -/
def capEntry : Entry := ⟨2000, "", none⟩

/-- A log with one 2000 ml entry per day for n consecutive days counting
backwards from d. -/
def runLog : Nat → Date → DailyLog
  | 0, _ => []
  | n + 1, d => (d, [capEntry]) :: runLog n (prevDate d)

/-- The dates of a list all meet the goal in the log. -/
def allMeet (log : DailyLog) (goal : ℚ) (l : List Date) : Prop :=
  ∀ d ∈ l, goal ≤ dailyTotal log d

/-- Loop invariant of the get_longest_streak scan after processing the
prefix p of the sorted key list: curStreak is the length of the longest
all-meeting suffix of p (with streakStart its first date), and maxStreak
is the length of the longest all-meeting contiguous segment of p (with
maxStart/maxEnd its first and last dates). -/
def LSInv (log : DailyLog) (goal : ℚ) (p : List Date) (s : LSState) : Prop :=
  (∃ q r, p = q ++ r ∧ allMeet log goal r ∧ r.length = s.curStreak ∧
    s.streakStart = r.head?) ∧
  (∀ r2, r2 <:+ p → allMeet log goal r2 → r2.length ≤ s.curStreak) ∧
  s.curStreak ≤ s.maxStreak ∧
  (∃ pre mid post, p = pre ++ mid ++ post ∧ allMeet log goal mid ∧
    mid.length = s.maxStreak ∧ s.maxStart = mid.head? ∧
    s.maxEnd = mid.getLast?) ∧
  (∀ pre mid post, p = pre ++ mid ++ post → allMeet log goal mid →
    mid.length ≤ s.maxStreak)

/-- Log with 2000 ml entries on 2024-01-01 and 2024-01-03 and nothing on
2024-01-02 — the calendar-gap counterexample input for C2. -/
def gapLog : DailyLog :=
  [(⟨2024, 1, 1⟩, [⟨2000, "", none⟩]), (⟨2024, 1, 3⟩, [⟨2000, "", none⟩])]

/-- Parsed form of the rows export_data_to_csv writes: one (date,
normalized entry) pair per entry across the sorted keys. -/
def exportPairs (log : DailyLog) : List (Date × Entry) :=
  (sortedKeys log).flatMap (fun d =>
    (entriesFor log d).map (fun e => (d, normalizeEntry e)))

/-- Folding parsed rows into a log, one appendEntryTo per row. -/
def importFold (log : DailyLog) (prs : List (Date × Entry)) : DailyLog :=
  prs.foldl (fun l pr => appendEntryTo l pr.1 pr.2) log

/-- Two-day log with one noted and one note-less entry, for the C1
witness. -/
def rtLog : DailyLog :=
  [(⟨2024, 1, 2⟩, [⟨5, "ts", some "hi"⟩]), (⟨2024, 1, 1⟩, [⟨3, "t2", none⟩])]

theorem Date.lt_irrefl (a : Date) : ¬ a < a := by
  intro h
  have h2 : Date.lt a a := h
  unfold Date.lt at h2
  omega

theorem Date.lt_trans {a b c : Date} (hab : a < b) (hbc : b < c) : a < c := by
  have h1 : Date.lt a b := hab
  have h2 : Date.lt b c := hbc
  show Date.lt a c
  unfold Date.lt at h1 h2 ⊢
  omega

theorem Date.lt_ne {a b : Date} (h : a < b) : a ≠ b := by
  intro he
  exact Date.lt_irrefl b (he ▸ h)

theorem prevIter_succ (n : Nat) (d : Date) :
    prevIter (n + 1) d = prevDate (prevIter n d) := by
  induction n generalizing d with
  | zero => rfl
  | succ m ih =>
    show prevIter (m + 1) (prevDate d) = prevDate (prevIter (m + 1) d)
    rw [ih (prevDate d)]
    rfl

theorem containsKey_cons (k : Date) (es : List Entry) (rest : DailyLog) (d : Date) :
    containsKey ((k, es) :: rest) d = (decide (d = k) || containsKey rest d) := by
  simp only [containsKey, logKeys, List.map_cons, List.mem_cons]
  by_cases h : d = k
  · simp [h]
  · simp [h]

theorem not_containsKey_entriesFor {log : DailyLog} {d : Date}
    (h : containsKey log d = false) : entriesFor log d = [] := by
  induction log with
  | nil => rfl
  | cons p rest ih =>
    obtain ⟨k, es⟩ := p
    rw [containsKey_cons] at h
    simp only [Bool.or_eq_false_iff, decide_eq_false_iff_not] at h
    rw [entriesFor, if_neg (fun hk => h.1 hk.symm)]
    exact ih h.2

theorem entriesFor_append (l₁ l₂ : DailyLog) (d : Date) :
    entriesFor (l₁ ++ l₂) d =
      if containsKey l₁ d then entriesFor l₁ d else entriesFor l₂ d := by
  induction l₁ with
  | nil => simp [containsKey, logKeys, entriesFor]
  | cons p rest ih =>
    obtain ⟨k, es⟩ := p
    rw [List.cons_append, containsKey_cons]
    by_cases hk : k = d
    · subst hk
      simp [entriesFor]
    · rw [entriesFor, if_neg hk, entriesFor, if_neg hk, ih]
      have hdk : decide (d = k) = false := decide_eq_false (fun h => hk h.symm)
      rw [hdk, Bool.false_or]

theorem entriesFor_appendInPlace_same {log : DailyLog} {d : Date} (e : Entry)
    (h : containsKey log d = true) :
    entriesFor (appendInPlace d e log) d = entriesFor log d ++ [e] := by
  induction log with
  | nil => simp [containsKey, logKeys] at h
  | cons p rest ih =>
    obtain ⟨k, es⟩ := p
    rw [containsKey_cons] at h
    by_cases hk : k = d
    · subst hk
      rw [appendInPlace, if_pos rfl, entriesFor, if_pos rfl, entriesFor, if_pos rfl]
    · rw [appendInPlace, if_neg hk, entriesFor, if_neg hk, entriesFor, if_neg hk]
      have hdk : decide (d = k) = false := decide_eq_false (fun h2 => hk h2.symm)
      rw [hdk, Bool.false_or] at h
      exact ih h

theorem entriesFor_appendInPlace_other {d d' : Date} (e : Entry) (log : DailyLog)
    (hne : d' ≠ d) :
    entriesFor (appendInPlace d e log) d' = entriesFor log d' := by
  induction log with
  | nil => rfl
  | cons p rest ih =>
    obtain ⟨k, es⟩ := p
    by_cases hk : k = d
    · subst hk
      rw [appendInPlace, if_pos rfl, entriesFor, if_neg (fun h => hne h.symm),
        entriesFor, if_neg (fun h => hne h.symm)]
    · rw [appendInPlace, if_neg hk, entriesFor, entriesFor]
      by_cases hkd : k = d'
      · rw [if_pos hkd, if_pos hkd]
      · rw [if_neg hkd, if_neg hkd, ih]

theorem entriesFor_appendEntryTo_same (log : DailyLog) (d : Date) (e : Entry) :
    entriesFor (appendEntryTo log d e) d = entriesFor log d ++ [e] := by
  unfold appendEntryTo
  by_cases hc : containsKey log d
  · rw [if_pos hc, entriesFor_appendInPlace_same e hc]
  · rw [Bool.not_eq_true] at hc
    rw [if_neg (by simp [hc]), entriesFor_append, if_neg (by simp [hc]),
      not_containsKey_entriesFor hc, entriesFor, if_pos rfl, List.nil_append]

theorem entriesFor_appendEntryTo_other (log : DailyLog) {d d' : Date} (e : Entry)
    (hne : d' ≠ d) : entriesFor (appendEntryTo log d e) d' = entriesFor log d' := by
  unfold appendEntryTo
  by_cases hc : containsKey log d
  · rw [if_pos hc, entriesFor_appendInPlace_other e log hne]
  · rw [Bool.not_eq_true] at hc
    rw [if_neg (by simp [hc]), entriesFor_append]
    by_cases hc2 : containsKey log d'
    · rw [if_pos hc2]
    · rw [Bool.not_eq_true] at hc2
      rw [if_neg (by simp [hc2]), not_containsKey_entriesFor hc2, entriesFor,
        if_neg (fun h => hne h.symm)]
      rfl

theorem Date.le_refl (a : Date) : a ≤ a := Or.inr rfl

theorem Date.le_of_lt {a b : Date} (h : a < b) : a ≤ b := Or.inl h

theorem Date.le_trans {a b c : Date} (h1 : a ≤ b) (h2 : b ≤ c) : a ≤ c := by
  rcases h1 with h1 | h1
  · rcases h2 with h2 | h2
    · exact Or.inl (Date.lt_trans h1 h2)
    · exact Or.inl (h2 ▸ h1)
  · exact h1 ▸ h2

theorem Date.le_of_not_lt {a b : Date} (h : ¬ a < b) : b ≤ a := by
  obtain ⟨y1, m1, e1⟩ := a
  obtain ⟨y2, m2, e2⟩ := b
  have h2 : ¬ Date.lt ⟨y1, m1, e1⟩ ⟨y2, m2, e2⟩ := h
  unfold Date.lt at h2
  dsimp only at h2
  by_cases he : (⟨y2, m2, e2⟩ : Date) = ⟨y1, m1, e1⟩
  · exact Or.inr he
  · refine Or.inl ?_
    show Date.lt _ _
    unfold Date.lt
    dsimp only
    simp only [Date.mk.injEq] at he
    omega

theorem Date.le_total (a b : Date) : a ≤ b ∨ b ≤ a := by
  by_cases h : a < b
  · exact Or.inl (Date.le_of_lt h)
  · exact Or.inr (Date.le_of_not_lt h)

/-- C8: load() returns an empty DailyLog when no durable document exists
(the first-run case is not an error), and fails with a StorageError when
the document exists but its content is malformed; the parse failure
propagates to the caller and is never turned into an empty result. -/
theorem c8_load_first_run_empty_malformed_error :
    load_water_log DiskDoc.missing = Except.ok ([] : DailyLog) ∧
    load_water_log DiskDoc.corrupt = Except.error StorageError.malformedDocument ∧
    (∀ log : DailyLog, load_water_log DiskDoc.corrupt ≠ Except.ok log) := by
  refine ⟨rfl, rfl, fun log h => ?_⟩
  exact Except.noConfusion h

theorem importRows_of_badRow {rows : List CsvRow} {r : CsvRow}
    (hmem : r ∈ rows) (hbad : parseRow r = none) :
    ∀ log : DailyLog, importRows log rows = none := by
  induction rows with
  | nil => cases hmem
  | cons r0 rs ih =>
    intro log
    rcases List.mem_cons.mp hmem with rfl | hmem2
    · rw [importRows, hbad]
    · rw [importRows]
      cases hpr : parseRow r0 with
      | none => rfl
      | some pr => exact ih hmem2 (appendEntryTo log pr.1 pr.2)

/-- C9: whenever importCsv fails — the file is missing, or some row has a
missing required column or an Amount that does not parse — it returns
false and the durable document is exactly as before: the save happens
only after every row has been parsed, so a mid-stream failure never
persists a partial import. -/
theorem c9_import_failure_leaves_document_unchanged
    (file : Option (List CsvRow)) (disk : DiskDoc) :
    ((import_data_from_csv file disk).1 = false →
      (import_data_from_csv file disk).2 = disk) ∧
    ((import_data_from_csv none disk).1 = false ∧
      (import_data_from_csv none disk).2 = disk) ∧
    (∀ rows r, file = some rows → r ∈ rows → parseRow r = none →
      (import_data_from_csv file disk).1 = false ∧
      (import_data_from_csv file disk).2 = disk) := by
  refine ⟨?_, ?_, ?_⟩
  · unfold import_data_from_csv
    cases hload : load_water_log disk with
    | error e => intro hfail; rfl
    | ok data =>
      cases file with
      | none => intro hfail; rfl
      | some rows =>
        dsimp only
        cases him : importRows data rows with
        | none => intro hfail; rfl
        | some merged =>
          intro hfail
          exact absurd hfail (by simp)
  · unfold import_data_from_csv
    cases load_water_log disk with
    | error e => exact ⟨rfl, rfl⟩
    | ok data => exact ⟨rfl, rfl⟩
  · intro rows r hfile hmem hbad
    subst hfile
    unfold import_data_from_csv
    cases hload : load_water_log disk with
    | error e => exact ⟨rfl, rfl⟩
    | ok data =>
      dsimp only
      rw [importRows_of_badRow hmem hbad data]
      exact ⟨rfl, rfl⟩

/-- Witness for C9 at a concrete input: a one-row file whose Amount cell
does not parse is rejected and leaves the stored document untouched. -/
theorem c9_witness :
    (import_data_from_csv
      (some [⟨some ⟨2024, 1, 1⟩, some "t", none, some "n"⟩])
      (DiskDoc.stored [(⟨2024, 1, 2⟩, [⟨100, "s", none⟩])])).1 = false ∧
    (import_data_from_csv
      (some [⟨some ⟨2024, 1, 1⟩, some "t", none, some "n"⟩])
      (DiskDoc.stored [(⟨2024, 1, 2⟩, [⟨100, "s", none⟩])])).2 =
      DiskDoc.stored [(⟨2024, 1, 2⟩, [⟨100, "s", none⟩])] :=
  (c9_import_failure_leaves_document_unchanged _ _).2.2
    [⟨some ⟨2024, 1, 1⟩, some "t", none, some "n"⟩]
    ⟨some ⟨2024, 1, 1⟩, some "t", none, some "n"⟩ rfl (List.mem_singleton.mpr rfl) rfl

/-- C7: for a positive goal the hydration percentage is
100 * todayTotal / goal rounded to one decimal place (and may exceed
100); for a non-positive goal the function never divides and applies the
return-0 policy. -/
theorem c7_hydration_percentage (log : DailyLog) (today : Date) (goal : ℚ) :
    (0 < goal → get_hydration_percentage log today goal =
      roundHalfEven 1 (100 * dailyTotal log today / goal)) ∧
    (goal ≤ 0 → get_hydration_percentage log today goal = 0) := by
  constructor
  · intro hpos
    unfold get_hydration_percentage get_today_total
    rw [if_pos hpos]
    ring_nf
  · intro hnonpos
    unfold get_hydration_percentage
    rw [if_neg (by exact fun h => absurd hnonpos (not_le.mpr h))]

/-- Witness for C7 at concrete inputs: a 500 ml day against goal 2000
gives 25.0 percent, and a non-positive goal gives 0. -/
theorem c7_witness :
    get_hydration_percentage [(⟨2024, 1, 1⟩, [⟨500, "t", none⟩])] ⟨2024, 1, 1⟩ 2000 = 25 ∧
    get_hydration_percentage [(⟨2024, 1, 1⟩, [⟨500, "t", none⟩])] ⟨2024, 1, 1⟩ (-3) = 0 := by
  constructor
  · have h := (c7_hydration_percentage [(⟨2024, 1, 1⟩, [⟨500, "t", none⟩])]
      ⟨2024, 1, 1⟩ 2000).1 (by norm_num)
    rw [h]
    have hd : dailyTotal [((⟨2024, 1, 1⟩ : Date), [(⟨500, "t", none⟩ : Entry)])] ⟨2024, 1, 1⟩ = 500 := by
      simp [dailyTotal, entriesFor, entryTotal]
    rw [hd]
    norm_num [roundHalfEven]
  · exact (c7_hydration_percentage [(⟨2024, 1, 1⟩, [⟨500, "t", none⟩])]
      ⟨2024, 1, 1⟩ (-3)).2 (by norm_num)

/-- C4: lastNDaysTotals(n) returns exactly n rows covering the trailing n
calendar days ending at today inclusive, oldest first (each date is the
previous calendar day of the next row's date and the last row is today),
and each row's total is the daily total of its date, which is 0 for a
date absent from the log. -/
theorem c4_last_n_days_totals (log : DailyLog) (today : Date) (n : Nat) :
    (get_last_n_days_totals log today n).length = n ∧
    (∀ k, k < n → (get_last_n_days_totals log today n)[k]? =
      some (prevIter (n - 1 - k) today,
        dailyTotal log (prevIter (n - 1 - k) today))) ∧
    (0 < n → ∃ p, (get_last_n_days_totals log today n).getLast? = some p ∧
      p.1 = today) ∧
    (∀ k, k + 1 < n → ∃ p q,
      (get_last_n_days_totals log today n)[k]? = some p ∧
      (get_last_n_days_totals log today n)[k + 1]? = some q ∧
      p.1 = prevDate q.1) ∧
    (∀ p ∈ get_last_n_days_totals log today n, p.2 = dailyTotal log p.1 ∧
      (containsKey log p.1 = false → p.2 = 0)) := by
  have hlen : (get_last_n_days_totals log today n).length = n := by
    unfold get_last_n_days_totals
    simp
  have hidx : ∀ k, k < n → (get_last_n_days_totals log today n)[k]? =
      some (prevIter (n - 1 - k) today,
        dailyTotal log (prevIter (n - 1 - k) today)) := by
    intro k hk
    unfold get_last_n_days_totals
    rw [List.getElem?_map, List.getElem?_map,
      List.getElem?_reverse (by simpa using hk), List.length_range,
      List.getElem?_range (by omega)]
    rfl
  refine ⟨hlen, hidx, ?_, ?_, ?_⟩
  · intro hn
    rw [List.getLast?_eq_getElem?, hlen, hidx (n - 1) (by omega)]
    refine ⟨_, rfl, ?_⟩
    have h0 : n - 1 - (n - 1) = 0 := by omega
    rw [h0]
    rfl
  · intro k hk
    refine ⟨_, _, hidx k (by omega), hidx (k + 1) (by omega), ?_⟩
    have h1 : n - 1 - k = (n - 1 - (k + 1)) + 1 := by omega
    rw [h1, prevIter_succ]
  · intro p hp
    unfold get_last_n_days_totals at hp
    rcases List.mem_map.mp hp with ⟨d, hd, rfl⟩
    refine ⟨rfl, fun habs => ?_⟩
    simp [dailyTotal, not_containsKey_entriesFor habs, entryTotal]

/-- Witness for C4 at a concrete input: three rows ending 2024-01-03 with
the log holding 500 ml on 2024-01-01. -/
theorem c4_witness :
    (get_last_n_days_totals [(⟨2024, 1, 1⟩, [⟨500, "t", none⟩])]
      ⟨2024, 1, 3⟩ 3).length = 3 ∧
    (get_last_n_days_totals [(⟨2024, 1, 1⟩, [⟨500, "t", none⟩])]
      ⟨2024, 1, 3⟩ 3)[0]? = some (⟨2024, 1, 1⟩, 500) := by
  constructor
  · exact (c4_last_n_days_totals [(⟨2024, 1, 1⟩, [⟨500, "t", none⟩])] ⟨2024, 1, 3⟩ 3).1
  · have h := (c4_last_n_days_totals [(⟨2024, 1, 1⟩, [⟨500, "t", none⟩])]
      ⟨2024, 1, 3⟩ 3).2.1 0 (by norm_num)
    rw [h]
    have hpi : prevIter (3 - 1 - 0) ⟨2024, 1, 3⟩ = (⟨2024, 1, 1⟩ : Date) := by
      simp +decide [prevIter, prevDate, daysInMonth, isLeapYear]
    rw [hpi]
    simp [dailyTotal, entriesFor, entryTotal]

theorem foldlMinDate_spec (ys : List Date) : ∀ acc : Date,
    (ys.foldl (fun a y => if y < a then y else a) acc = acc ∨
      ys.foldl (fun a y => if y < a then y else a) acc ∈ ys) ∧
    ys.foldl (fun a y => if y < a then y else a) acc ≤ acc ∧
    ∀ k ∈ ys, ys.foldl (fun a y => if y < a then y else a) acc ≤ k := by
  induction ys with
  | nil =>
    intro acc
    exact ⟨Or.inl rfl, Date.le_refl acc, fun k hk => absurd hk (List.not_mem_nil k)⟩
  | cons y ys ih =>
    intro acc
    rw [List.foldl_cons]
    obtain ⟨hmem, hle, hall⟩ := ih (if y < acc then y else acc)
    have hacc : (if y < acc then y else acc) ≤ acc := by
      by_cases hy : y < acc
      · rw [if_pos hy]; exact Date.le_of_lt hy
      · rw [if_neg hy]; exact Date.le_refl acc
    have hy2 : (if y < acc then y else acc) ≤ y := by
      by_cases hy : y < acc
      · rw [if_pos hy]; exact Date.le_refl y
      · rw [if_neg hy]; exact Date.le_of_not_lt hy
    refine ⟨?_, Date.le_trans hle hacc, ?_⟩
    · rcases hmem with he | hm
      · rw [he]
        by_cases hy : y < acc
        · rw [if_pos hy]; exact Or.inr (List.mem_cons_self y ys)
        · rw [if_neg hy]; exact Or.inl rfl
      · exact Or.inr (List.mem_cons_of_mem y hm)
    · intro k hk
      rcases List.mem_cons.mp hk with rfl | hk2
      · exact Date.le_trans hle hy2
      · exact hall k hk2

theorem foldlMaxDate_spec (ys : List Date) : ∀ acc : Date,
    (ys.foldl (fun a y => if a < y then y else a) acc = acc ∨
      ys.foldl (fun a y => if a < y then y else a) acc ∈ ys) ∧
    acc ≤ ys.foldl (fun a y => if a < y then y else a) acc ∧
    ∀ k ∈ ys, k ≤ ys.foldl (fun a y => if a < y then y else a) acc := by
  induction ys with
  | nil =>
    intro acc
    exact ⟨Or.inl rfl, Date.le_refl acc, fun k hk => absurd hk (List.not_mem_nil k)⟩
  | cons y ys ih =>
    intro acc
    rw [List.foldl_cons]
    obtain ⟨hmem, hle, hall⟩ := ih (if acc < y then y else acc)
    have hacc : acc ≤ (if acc < y then y else acc) := by
      by_cases hy : acc < y
      · rw [if_pos hy]; exact Date.le_of_lt hy
      · rw [if_neg hy]; exact Date.le_refl acc
    have hy2 : y ≤ (if acc < y then y else acc) := by
      by_cases hy : acc < y
      · rw [if_pos hy]; exact Date.le_refl y
      · rw [if_neg hy]; exact Date.le_of_not_lt hy
    refine ⟨?_, Date.le_trans hacc hle, ?_⟩
    · rcases hmem with he | hm
      · rw [he]
        by_cases hy : acc < y
        · rw [if_pos hy]; exact Or.inr (List.mem_cons_self y ys)
        · rw [if_neg hy]; exact Or.inl rfl
      · exact Or.inr (List.mem_cons_of_mem y hm)
    · intro k hk
      rcases List.mem_cons.mp hk with rfl | hk2
      · exact Date.le_trans hy2 hle
      · exact hall k hk2

theorem pyMinDate_spec {l : List Date} (hne : l ≠ []) :
    ∃ m, pyMinDate l = some m ∧ m ∈ l ∧ ∀ k ∈ l, m ≤ k := by
  cases l with
  | nil => exact absurd rfl hne
  | cons x xs =>
    obtain ⟨hmem, hle, hall⟩ := foldlMinDate_spec xs x
    refine ⟨_, rfl, ?_, ?_⟩
    · rcases hmem with he | hm
      · rw [he]; exact List.mem_cons_self x xs
      · exact List.mem_cons_of_mem x hm
    · intro k hk
      rcases List.mem_cons.mp hk with rfl | hk2
      · exact hle
      · exact hall k hk2

theorem pyMaxDate_spec {l : List Date} (hne : l ≠ []) :
    ∃ m, pyMaxDate l = some m ∧ m ∈ l ∧ ∀ k ∈ l, k ≤ m := by
  cases l with
  | nil => exact absurd rfl hne
  | cons x xs =>
    obtain ⟨hmem, hle, hall⟩ := foldlMaxDate_spec xs x
    refine ⟨_, rfl, ?_, ?_⟩
    · rcases hmem with he | hm
      · rw [he]; exact List.mem_cons_self x xs
      · exact List.mem_cons_of_mem x hm
    · intro k hk
      rcases List.mem_cons.mp hk with rfl | hk2
      · exact hle
      · exact hall k hk2

/-- C6 counterexample: the log holding exactly the key 2024-01-01 with no
entries is a non-empty DailyLog, yet get_all_time_statistics takes the
zero-data early return whose dict carries no first_logged_date or
last_logged_date keys at all (modelled as none) — the claim instead
requires first/last_logged_date = some 2024-01-01 for every non-empty
log. -/
theorem c6_counterexample :
    ([(⟨2024, 1, 1⟩, [])] : DailyLog) ≠ [] ∧
    (get_all_time_statistics [(⟨2024, 1, 1⟩, [])]).first_logged_date = none ∧
    (get_all_time_statistics [(⟨2024, 1, 1⟩, [])]).last_logged_date = none := by
  refine ⟨by simp, ?_, ?_⟩ <;>
    simp [get_all_time_statistics, entryTotal]

/-- C6 (amended): for every DailyLog with at least one date whose entries
sum to a positive total, all-time statistics report first_logged_date and
last_logged_date as the minimum and maximum of all date keys present in
the log — including keys whose entries sum to zero; a non-empty log whose
every date has non-positive total instead hits the early return that
omits both fields. -/
theorem c6_first_last_logged_dates (log : DailyLog)
    (h : ∃ p ∈ log, 0 < entryTotal p.2) :
    ∃ fd ld, (get_all_time_statistics log).first_logged_date = some fd ∧
      (get_all_time_statistics log).last_logged_date = some ld ∧
      fd ∈ logKeys log ∧ ld ∈ logKeys log ∧
      (∀ k ∈ logKeys log, fd ≤ k) ∧ (∀ k ∈ logKeys log, k ≤ ld) := by
  obtain ⟨p, hp, hpos⟩ := h
  have hne : log ≠ [] := by rintro rfl; cases hp
  have hkeys : logKeys log ≠ [] := by
    simp [logKeys, hne]
  unfold get_all_time_statistics
  rw [if_neg (by simp [List.isEmpty_iff, hne])]
  have hmem : (p.1, entryTotal p.2) ∈
      (log.map (fun q => (q.1, entryTotal q.2))).filter
        (fun q => decide (0 < q.2)) := by
    apply List.mem_filter.mpr
    refine ⟨?_, by simpa using hpos⟩
    exact List.mem_map_of_mem (fun q => (q.1, entryTotal q.2)) hp
  have hne2 : (log.map (fun q => (q.1, entryTotal q.2))).filter
      (fun q => decide (0 < q.2)) ≠ [] := by
    intro h0
    rw [h0] at hmem
    cases hmem
  rw [if_neg (by simp [List.isEmpty_iff, hne2])]
  obtain ⟨fd, hfd, hfdmem, hfdle⟩ := pyMinDate_spec hkeys
  obtain ⟨ld, hld, hldmem, hldle⟩ := pyMaxDate_spec hkeys
  exact ⟨fd, ld, by simp [hfd], by simp [hld], hfdmem, hldmem, hfdle, hldle⟩

/-- Witness for C6 (amended) at a concrete input: a log with a positive
day 2024-01-02 and a zero-total day 2024-01-01 still reports 2024-01-01
as first logged date and 2024-01-02 as last. -/
theorem c6_witness :
    (get_all_time_statistics
      [(⟨2024, 1, 2⟩, [⟨5, "t", none⟩]), (⟨2024, 1, 1⟩, [⟨0, "s", none⟩])]).first_logged_date =
      some ⟨2024, 1, 1⟩ ∧
    (get_all_time_statistics
      [(⟨2024, 1, 2⟩, [⟨5, "t", none⟩]), (⟨2024, 1, 1⟩, [⟨0, "s", none⟩])]).last_logged_date =
      some ⟨2024, 1, 2⟩ := by
  obtain ⟨fd, ld, h1, h2, h3, h4, h5, h6⟩ := c6_first_last_logged_dates
    [(⟨2024, 1, 2⟩, [⟨5, "t", none⟩]), (⟨2024, 1, 1⟩, [⟨0, "s", none⟩])]
    ⟨(⟨2024, 1, 2⟩, [⟨5, "t", none⟩]), by simp, by norm_num [entryTotal]⟩
  have hfd : fd = ⟨2024, 1, 1⟩ := by
    have h7 := h5 ⟨2024, 1, 1⟩ (by simp [logKeys])
    have h3b : fd = ⟨2024, 1, 2⟩ ∨ fd = ⟨2024, 1, 1⟩ := by
      simpa [logKeys] using h3
    rcases h3b with he | he
    · subst he
      exact absurd h7 (by decide)
    · exact he
  have hld : ld = ⟨2024, 1, 2⟩ := by
    have h7 := h6 ⟨2024, 1, 2⟩ (by simp [logKeys])
    have h4b : ld = ⟨2024, 1, 2⟩ ∨ ld = ⟨2024, 1, 1⟩ := by
      simpa [logKeys] using h4
    rcases h4b with he | he
    · exact he
    · subst he
      exact absurd h7 (by decide)
  rw [h1, h2, hfd, hld]
  exact ⟨rfl, rfl⟩

theorem foldlMaxSnd_spec (ys : List (Date × ℚ)) : ∀ acc : Date × ℚ,
    (ys.foldl (fun a q => if a.2 < q.2 then q else a) acc = acc ∨
      ys.foldl (fun a q => if a.2 < q.2 then q else a) acc ∈ ys) ∧
    acc.2 ≤ (ys.foldl (fun a q => if a.2 < q.2 then q else a) acc).2 ∧
    ∀ k ∈ ys, k.2 ≤ (ys.foldl (fun a q => if a.2 < q.2 then q else a) acc).2 := by
  induction ys with
  | nil =>
    intro acc
    exact ⟨Or.inl rfl, le_refl _, fun k hk => absurd hk (List.not_mem_nil k)⟩
  | cons q qs ih =>
    intro acc
    rw [List.foldl_cons]
    obtain ⟨hmem, hle, hall⟩ := ih (if acc.2 < q.2 then q else acc)
    have hacc : acc.2 ≤ (if acc.2 < q.2 then q else acc).2 := by
      by_cases hq : acc.2 < q.2
      · rw [if_pos hq]; exact le_of_lt hq
      · rw [if_neg hq]
    have hq2 : q.2 ≤ (if acc.2 < q.2 then q else acc).2 := by
      by_cases hq : acc.2 < q.2
      · rw [if_pos hq]
      · rw [if_neg hq]; exact le_of_not_lt hq
    refine ⟨?_, le_trans hacc hle, ?_⟩
    · rcases hmem with he | hm
      · rw [he]
        by_cases hq : acc.2 < q.2
        · rw [if_pos hq]; exact Or.inr (List.mem_cons_self q qs)
        · rw [if_neg hq]; exact Or.inl rfl
      · exact Or.inr (List.mem_cons_of_mem q hm)
    · intro k hk
      rcases List.mem_cons.mp hk with rfl | hk2
      · exact le_trans hq2 hle
      · exact hall k hk2

theorem foldlMinSnd_spec (ys : List (Date × ℚ)) : ∀ acc : Date × ℚ,
    (ys.foldl (fun a q => if q.2 < a.2 then q else a) acc = acc ∨
      ys.foldl (fun a q => if q.2 < a.2 then q else a) acc ∈ ys) ∧
    (ys.foldl (fun a q => if q.2 < a.2 then q else a) acc).2 ≤ acc.2 ∧
    ∀ k ∈ ys, (ys.foldl (fun a q => if q.2 < a.2 then q else a) acc).2 ≤ k.2 := by
  induction ys with
  | nil =>
    intro acc
    exact ⟨Or.inl rfl, le_refl _, fun k hk => absurd hk (List.not_mem_nil k)⟩
  | cons q qs ih =>
    intro acc
    rw [List.foldl_cons]
    obtain ⟨hmem, hle, hall⟩ := ih (if q.2 < acc.2 then q else acc)
    have hacc : (if q.2 < acc.2 then q else acc).2 ≤ acc.2 := by
      by_cases hq : q.2 < acc.2
      · rw [if_pos hq]; exact le_of_lt hq
      · rw [if_neg hq]
    have hq2 : (if q.2 < acc.2 then q else acc).2 ≤ q.2 := by
      by_cases hq : q.2 < acc.2
      · rw [if_pos hq]
      · rw [if_neg hq]; exact le_of_not_lt hq
    refine ⟨?_, le_trans hle hacc, ?_⟩
    · rcases hmem with he | hm
      · rw [he]
        by_cases hq : q.2 < acc.2
        · rw [if_pos hq]; exact Or.inr (List.mem_cons_self q qs)
        · rw [if_neg hq]; exact Or.inl rfl
      · exact Or.inr (List.mem_cons_of_mem q hm)
    · intro k hk
      rcases List.mem_cons.mp hk with rfl | hk2
      · exact le_trans hle hq2
      · exact hall k hk2

theorem pyMaxBySnd_spec {l : List (Date × ℚ)} (hne : l ≠ []) :
    ∃ b, pyMaxBySnd l = some b ∧ b ∈ l ∧ ∀ q ∈ l, q.2 ≤ b.2 := by
  cases l with
  | nil => exact absurd rfl hne
  | cons x xs =>
    obtain ⟨hmem, hle, hall⟩ := foldlMaxSnd_spec xs x
    refine ⟨_, rfl, ?_, ?_⟩
    · rcases hmem with he | hm
      · rw [he]; exact List.mem_cons_self x xs
      · exact List.mem_cons_of_mem x hm
    · intro k hk
      rcases List.mem_cons.mp hk with rfl | hk2
      · exact hle
      · exact hall k hk2

theorem pyMinBySnd_spec {l : List (Date × ℚ)} (hne : l ≠ []) :
    ∃ w, pyMinBySnd l = some w ∧ w ∈ l ∧ ∀ q ∈ l, w.2 ≤ q.2 := by
  cases l with
  | nil => exact absurd rfl hne
  | cons x xs =>
    obtain ⟨hmem, hle, hall⟩ := foldlMinSnd_spec xs x
    refine ⟨_, rfl, ?_, ?_⟩
    · rcases hmem with he | hm
      · rw [he]; exact List.mem_cons_self x xs
      · exact List.mem_cons_of_mem x hm
    · intro k hk
      rcases List.mem_cons.mp hk with rfl | hk2
      · exact hle
      · exact hall k hk2

/-- C5: monthlyStatistics computes a daily total for every calendar day of
the month with the calendar's correct day count (February has 29 slots in
a leap year, 28 otherwise); best_day and worst_day are the maximum and
minimum among days with strictly positive total; and when no day of the
month has a positive total, best_day and worst_day are null and total and
average are 0. -/
theorem c5_monthly_statistics (log : DailyLog) (y m : Nat) :
    (get_monthly_data log y m).length = daysInMonth y m ∧
    (daysInMonth y 2 = if isLeapYear y then 29 else 28) ∧
    (∀ p ∈ get_monthly_data log y m,
      p.2 = dailyTotal log p.1 ∧ p.1.year = y ∧ p.1.month = m) ∧
    ((∀ p ∈ get_monthly_data log y m, p.2 ≤ 0) →
      get_monthly_statistics log y m = ⟨0, 0, none, none, 0, none⟩) ∧
    ((∃ p ∈ get_monthly_data log y m, 0 < p.2) →
      ∃ b w, (get_monthly_statistics log y m).best_day = some b ∧
        (get_monthly_statistics log y m).worst_day = some w ∧
        b ∈ get_monthly_data log y m ∧ 0 < b.2 ∧
        (∀ p ∈ get_monthly_data log y m, p.2 ≤ b.2) ∧
        w ∈ get_monthly_data log y m ∧ 0 < w.2 ∧
        (∀ p ∈ get_monthly_data log y m, 0 < p.2 → w.2 ≤ p.2)) := by
  refine ⟨by simp [get_monthly_data], by simp [daysInMonth], ?_, ?_, ?_⟩
  · intro p hp
    rcases List.mem_map.mp hp with ⟨i, hi, rfl⟩
    exact ⟨rfl, rfl, rfl⟩
  · intro hz
    have hfil : ((get_monthly_data log y m).map Prod.snd).filter
        (fun a => decide (0 < a)) = [] := by
      apply List.filter_eq_nil_iff.mpr
      intro a ha
      rcases List.mem_map.mp ha with ⟨p, hp, rfl⟩
      simpa using not_lt.mpr (hz p hp)
    unfold get_monthly_statistics
    dsimp only
    rw [hfil]
    rfl
  · intro hpos
    obtain ⟨p, hp, hppos⟩ := hpos
    have hmemf : p.2 ∈ ((get_monthly_data log y m).map Prod.snd).filter
        (fun a => decide (0 < a)) :=
      List.mem_filter.mpr ⟨List.mem_map_of_mem Prod.snd hp, by simpa using hppos⟩
    have hfne : ((get_monthly_data log y m).map Prod.snd).filter
        (fun a => decide (0 < a)) ≠ [] := by
      intro h0
      rw [h0] at hmemf
      cases hmemf
    have hmdne : get_monthly_data log y m ≠ [] := by
      intro h0
      rw [h0] at hp
      cases hp
    have hpfne : (get_monthly_data log y m).filter (fun q => decide (0 < q.2)) ≠ [] := by
      have : p ∈ (get_monthly_data log y m).filter (fun q => decide (0 < q.2)) :=
        List.mem_filter.mpr ⟨hp, by simpa using hppos⟩
      intro h0
      rw [h0] at this
      cases this
    obtain ⟨b, hb, hbmem, hble⟩ := pyMaxBySnd_spec hmdne
    obtain ⟨w, hw, hwmem, hwle⟩ := pyMinBySnd_spec hpfne
    have hbest : (get_monthly_statistics log y m).best_day = some b := by
      unfold get_monthly_statistics
      dsimp only
      rw [if_neg (by simpa [List.isEmpty_iff] using hfne)]
      simpa using hb
    have hworst : (get_monthly_statistics log y m).worst_day = some w := by
      unfold get_monthly_statistics
      dsimp only
      rw [if_neg (by simpa [List.isEmpty_iff] using hfne)]
      simpa using hw
    have hwf := List.mem_filter.mp hwmem
    refine ⟨b, w, hbest, hworst, hbmem, lt_of_lt_of_le hppos (hble p hp), hble,
      hwf.1, by simpa using hwf.2, ?_⟩
    intro q hq hqpos
    exact hwle q (List.mem_filter.mpr ⟨hq, by simpa using hqpos⟩)

/-- Witness for C5 at concrete inputs: the empty log yields the zero
statistics for January 2024, and a log with 500 ml on 2024-01-01 yields a
present best_day and worst_day. -/
theorem c5_witness :
    get_monthly_statistics [] 2024 1 = ⟨0, 0, none, none, 0, none⟩ ∧
    (get_monthly_statistics [(⟨2024, 1, 1⟩, [⟨500, "t", none⟩])] 2024 1).best_day ≠ none ∧
    (get_monthly_statistics [(⟨2024, 1, 1⟩, [⟨500, "t", none⟩])] 2024 1).worst_day ≠ none := by
  refine ⟨?_, ?_⟩
  · apply (c5_monthly_statistics [] 2024 1).2.2.2.1
    intro p hp
    rcases List.mem_map.mp hp with ⟨i, hi, rfl⟩
    simp [dailyTotal, entriesFor, entryTotal]
  · have hmem : ((⟨2024, 1, 1⟩ : Date),
        dailyTotal [(⟨2024, 1, 1⟩, [⟨500, "t", none⟩])] ⟨2024, 1, 1⟩) ∈
        get_monthly_data [(⟨2024, 1, 1⟩, [⟨500, "t", none⟩])] 2024 1 := by
      apply List.mem_map.mpr
      exact ⟨0, by simp [daysInMonth], rfl⟩
    have hpos : (0 : ℚ) <
        dailyTotal [(⟨2024, 1, 1⟩, [⟨500, "t", none⟩])] ⟨2024, 1, 1⟩ := by
      simp [dailyTotal, entriesFor, entryTotal]
    obtain ⟨b, w, hb, hw, _⟩ :=
      (c5_monthly_statistics [(⟨2024, 1, 1⟩, [⟨500, "t", none⟩])] 2024 1).2.2.2.2
        ⟨_, hmem, hpos⟩
    constructor
    · rw [hb]; exact Option.noConfusion
    · rw [hw]; exact Option.noConfusion

theorem prevDate_year_le (d : Date) : (prevDate d).year ≤ d.year := by
  unfold prevDate
  by_cases h1 : 1 < d.day
  · rw [if_pos h1]
  · rw [if_neg h1]
    by_cases h2 : 1 < d.month
    · rw [if_pos h2]
    · rw [if_neg h2]
      exact Nat.sub_le d.year 1

theorem prevIter_year_le : ∀ (n : Nat) (d : Date), (prevIter n d).year ≤ d.year := by
  intro n
  induction n with
  | zero => intro d; exact Nat.le_refl _
  | succ m ih =>
    intro d
    calc (prevIter (m + 1) d).year = (prevIter m (prevDate d)).year := rfl
    _ ≤ (prevDate d).year := ih (prevDate d)
    _ ≤ d.year := prevDate_year_le d

theorem prevIter_add (m n : Nat) (d : Date) :
    prevIter (m + n) d = prevIter m (prevIter n d) := by
  induction n generalizing d with
  | zero => rfl
  | succ k ih =>
    show prevIter (m + k) (prevDate d) = prevIter m (prevIter (k + 1) d)
    rw [ih (prevDate d)]
    rfl

theorem prevDate_lt {d : Date} (h : 1 ≤ d.year) : prevDate d < d := by
  show Date.lt (prevDate d) d
  unfold prevDate
  by_cases h1 : 1 < d.day
  · rw [if_pos h1]
    unfold Date.lt
    dsimp only
    omega
  · rw [if_neg h1]
    by_cases h2 : 1 < d.month
    · rw [if_pos h2]
      unfold Date.lt
      dsimp only
      omega
    · rw [if_neg h2]
      unfold Date.lt
      dsimp only
      omega

theorem prevIter_year_ge {n : Nat} {d : Date} (h : 1 ≤ (prevIter n d).year) :
    ∀ j, j ≤ n → 1 ≤ (prevIter j d).year := by
  intro j hj
  have h1 : prevIter n d = prevIter (n - j) (prevIter j d) := by
    rw [← prevIter_add]
    congr 1
    omega
  rw [h1] at h
  exact le_trans h (prevIter_year_le (n - j) (prevIter j d))

theorem prevDate_year_lower (d : Date) : d.year - 1 ≤ (prevDate d).year := by
  unfold prevDate
  by_cases h1 : 1 < d.day
  · rw [if_pos h1]
    exact Nat.sub_le d.year 1
  · rw [if_neg h1]
    by_cases h2 : 1 < d.month
    · rw [if_pos h2]
      exact Nat.sub_le d.year 1
    · rw [if_neg h2]

theorem prevIter_year_lower (n : Nat) (d : Date) :
    d.year - n ≤ (prevIter n d).year := by
  induction n generalizing d with
  | zero => exact Nat.sub_le d.year 0
  | succ k ih =>
    calc d.year - (k + 1) ≤ (prevDate d).year - k := by
          have := prevDate_year_lower d
          omega
    _ ≤ (prevIter k (prevDate d)).year := ih (prevDate d)
    _ = (prevIter (k + 1) d).year := rfl

theorem prevIter_lt_base {n : Nat} {d : Date} (h : 1 ≤ (prevIter n d).year) :
    ∀ i, i + 1 ≤ n → prevIter (i + 1) d < d := by
  intro i
  induction i with
  | zero =>
    intro hle
    show prevDate d < d
    exact prevDate_lt (prevIter_year_ge h 0 (by omega))
  | succ k ih =>
    intro hle
    rw [prevIter_succ (k + 1) d]
    have hk1 : prevDate (prevIter (k + 1) d) < prevIter (k + 1) d :=
      prevDate_lt (prevIter_year_ge h (k + 1) (by omega))
    exact Date.lt_trans hk1 (ih (by omega))

theorem streakFrom_succ (log : DailyLog) (goal : ℚ) (d : Date) (n : Nat) :
    streakFrom log goal d (n + 1) =
      if goal ≤ dailyTotal log d then streakFrom log goal (prevDate d) n + 1
      else 0 := rfl

theorem streakFrom_min (log : DailyLog) (goal : ℚ) :
    ∀ (m n : Nat) (d : Date), m ≤ n →
      streakFrom log goal d m = min (streakFrom log goal d n) m := by
  intro m
  induction m with
  | zero =>
    intro n d h
    simp [streakFrom]
  | succ k ih =>
    intro n d h
    cases n with
    | zero => omega
    | succ n1 =>
      simp only [streakFrom]
      by_cases hd : goal ≤ dailyTotal log d
      · rw [if_pos hd, if_pos hd, ih n1 (prevDate d) (by omega)]
        omega
      · rw [if_neg hd, if_neg hd]
        omega

theorem streakFrom_congr (log log2 : DailyLog) (goal : ℚ) :
    ∀ (n : Nat) (d : Date),
      (∀ i, i < n → entriesFor log2 (prevIter i d) = entriesFor log (prevIter i d)) →
      streakFrom log2 goal d n = streakFrom log goal d n := by
  intro n
  induction n with
  | zero => intro d h; rfl
  | succ k ih =>
    intro d h
    have h0 : dailyTotal log2 d = dailyTotal log d := by
      unfold dailyTotal
      rw [show entriesFor log2 d = entriesFor log d from h 0 (by omega)]
    simp only [streakFrom]
    rw [h0]
    by_cases hd : goal ≤ dailyTotal log d
    · rw [if_pos hd, if_pos hd, ih (prevDate d) (fun i hi => h (i + 1) (by omega))]
    · rw [if_neg hd, if_neg hd]

/-- C3 (amended): currentStreak(goal) walks backward from today counting
consecutive days with total at least goal, stopping at the first failing
day (a day with no entries has total 0) or after the 365-day lookback
window; it is 0 whenever today's total is below goal, and when
yesterday's streak k met the goal with k strictly below the 365-day cap,
appending enough to meet today's goal yields streak k + 1 (at k = 365 the
window caps the result at 365 instead). -/
theorem c3_current_streak (log : DailyLog) (today : Date) (goal : ℚ) :
    (dailyTotal log today < goal → get_streak_count log today goal = 0) ∧
    (∀ log2 : DailyLog, 1 ≤ (prevIter 365 today).year →
      get_streak_count log (prevDate today) goal < 365 →
      (∀ d, d ≠ today → entriesFor log2 d = entriesFor log d) →
      goal ≤ dailyTotal log2 today →
      get_streak_count log2 today goal =
        get_streak_count log (prevDate today) goal + 1) := by
  constructor
  · intro hlt
    unfold get_streak_count
    rw [show (365 : Nat) = 364 + 1 from rfl, streakFrom_succ,
      if_neg (not_le.mpr hlt)]
  · intro log2 hyear hk hagree hmeet
    unfold get_streak_count at hk ⊢
    have hstep : streakFrom log2 goal today 365 =
        streakFrom log2 goal (prevDate today) 364 + 1 := by
      rw [show (365 : Nat) = 364 + 1 from rfl, streakFrom_succ, if_pos hmeet]
    rw [hstep]
    have hcongr : streakFrom log2 goal (prevDate today) 364 =
        streakFrom log goal (prevDate today) 364 := by
      apply streakFrom_congr
      intro i hi
      apply hagree
      have hlt : prevIter (i + 1) today < today :=
        prevIter_lt_base hyear i (by omega)
      exact Date.lt_ne hlt
    rw [hcongr, streakFrom_min log goal 364 365 (prevDate today) (by omega)]
    omega

theorem dailyTotal_runLog_head (n : Nat) (d : Date) :
    dailyTotal (runLog (n + 1) d) d = 2000 := by
  show dailyTotal ((d, [capEntry]) :: runLog n (prevDate d)) d = 2000
  unfold dailyTotal
  rw [entriesFor, if_pos rfl]
  norm_num [entryTotal, capEntry]

theorem streakFrom_runLog (n : Nat) : ∀ (m : Nat) (d : Date), n ≤ m →
    1 ≤ (prevIter m d).year → streakFrom (runLog m d) 2000 d n = n := by
  induction n with
  | zero => intro m d h hy; rfl
  | succ k ih =>
    intro m d h hy
    cases m with
    | zero => omega
    | succ m1 =>
      simp only [streakFrom]
      rw [dailyTotal_runLog_head m1 d, if_pos (by norm_num)]
      congr 1
      have hcongr : streakFrom (runLog (m1 + 1) d) 2000 (prevDate d) k =
          streakFrom (runLog m1 (prevDate d)) 2000 (prevDate d) k := by
        apply streakFrom_congr
        intro i hi
        show entriesFor ((d, [capEntry]) :: runLog m1 (prevDate d))
          (prevIter i (prevDate d)) = _
        rw [entriesFor, if_neg ?hne]
        case hne =>
          have hlt : prevIter (i + 1) d < d := prevIter_lt_base hy i (by omega)
          exact fun he => Date.lt_ne hlt he.symm
      rw [hcongr]
      exact ih m1 (prevDate d) (by omega) hy

/-- C3 counterexample for the unconditional k + 1 step: with one 2000 ml
entry on each of the 365 days ending yesterday (2024-02-29), yesterday's
streak is the cap value 365; today (2024-03-01) also has a 2000 ml entry
and the rest of the log is unchanged, yet today's streak is again 365,
not 365 + 1 — the 365-day lookback window caps the result. -/
theorem c3_counterexample :
    get_streak_count (runLog 365 (prevDate ⟨2024, 3, 1⟩))
      (prevDate ⟨2024, 3, 1⟩) 2000 = 365 ∧
    (∀ d, d ≠ (⟨2024, 3, 1⟩ : Date) →
      entriesFor (runLog 366 ⟨2024, 3, 1⟩) d =
        entriesFor (runLog 365 (prevDate ⟨2024, 3, 1⟩)) d) ∧
    (2000 : ℚ) ≤ dailyTotal (runLog 366 ⟨2024, 3, 1⟩) ⟨2024, 3, 1⟩ ∧
    get_streak_count (runLog 366 ⟨2024, 3, 1⟩) ⟨2024, 3, 1⟩ 2000 = 365 := by
  refine ⟨?_, ?_, ?_, ?_⟩
  · unfold get_streak_count
    refine streakFrom_runLog 365 365 (prevDate ⟨2024, 3, 1⟩) (le_refl 365) ?_
    have h1 := prevIter_year_lower 365 (prevDate ⟨2024, 3, 1⟩)
    have h2 := prevDate_year_lower ⟨2024, 3, 1⟩
    have h3 : (prevDate (⟨2024, 3, 1⟩ : Date)).year - 365 ≤
        (prevIter 365 (prevDate ⟨2024, 3, 1⟩)).year := h1
    have hy : (⟨2024, 3, 1⟩ : Date).year = 2024 := rfl
    omega
  · intro d hd
    show entriesFor ((⟨2024, 3, 1⟩, [capEntry]) ::
      runLog 365 (prevDate ⟨2024, 3, 1⟩)) d = _
    rw [entriesFor, if_neg (fun he => hd he.symm)]
  · rw [show dailyTotal (runLog 366 ⟨2024, 3, 1⟩) ⟨2024, 3, 1⟩ = 2000 from
      dailyTotal_runLog_head 365 ⟨2024, 3, 1⟩]
  · unfold get_streak_count
    refine streakFrom_runLog 365 366 ⟨2024, 3, 1⟩ (by omega) ?_
    have h1 := prevIter_year_lower 366 ⟨2024, 3, 1⟩
    have hy : (⟨2024, 3, 1⟩ : Date).year = 2024 := rfl
    omega

/-- Witness for C3 at concrete inputs: today 2024-01-02 with an empty day
gives streak 0; with yesterday's streak 1 and a 2000 ml entry added for
today, the streak becomes 2. -/
theorem c3_witness :
    get_streak_count [(⟨2024, 1, 1⟩, [⟨2000, "t", none⟩])] ⟨2024, 1, 2⟩ 2000 = 0 ∧
    get_streak_count
      [(⟨2024, 1, 1⟩, [⟨2000, "t", none⟩]), (⟨2024, 1, 2⟩, [⟨2000, "s", none⟩])]
      ⟨2024, 1, 2⟩ 2000 = 2 := by
  have hprev : prevDate (⟨2024, 1, 2⟩ : Date) = ⟨2024, 1, 1⟩ := by decide
  constructor
  · apply (c3_current_streak [(⟨2024, 1, 1⟩, [⟨2000, "t", none⟩])] ⟨2024, 1, 2⟩ 2000).1
    have hdt : dailyTotal [((⟨2024, 1, 1⟩ : Date), [(⟨2000, "t", none⟩ : Entry)])]
        ⟨2024, 1, 2⟩ = 0 := by
      simp +decide [dailyTotal, entriesFor, entryTotal]
    rw [hdt]
    norm_num
  · have hk1 : get_streak_count [(⟨2024, 1, 1⟩, [⟨2000, "t", none⟩])]
        (prevDate ⟨2024, 1, 2⟩) 2000 = 1 := by
      rw [hprev]
      unfold get_streak_count
      rw [show (365 : Nat) = 364 + 1 from rfl, streakFrom_succ,
        if_pos (by simp +decide [dailyTotal, entriesFor, entryTotal])]
      rw [show (364 : Nat) = 363 + 1 from rfl, streakFrom_succ]
      rw [if_neg ?hne]
      case hne =>
        rw [show prevDate (⟨2024, 1, 1⟩ : Date) = ⟨2023, 12, 31⟩ from by decide]
        have hdt : dailyTotal [((⟨2024, 1, 1⟩ : Date), [(⟨2000, "t", none⟩ : Entry)])]
            ⟨2023, 12, 31⟩ = 0 := by
          simp +decide [dailyTotal, entriesFor, entryTotal]
        rw [hdt]
        norm_num
    have hagree : ∀ d, d ≠ (⟨2024, 1, 2⟩ : Date) →
        entriesFor [(⟨2024, 1, 1⟩, [⟨2000, "t", none⟩]),
          (⟨2024, 1, 2⟩, [⟨2000, "s", none⟩])] d =
        entriesFor [(⟨2024, 1, 1⟩, [⟨2000, "t", none⟩])] d := by
      intro d hd
      have hL : entriesFor [(⟨2024, 1, 1⟩, [⟨2000, "t", none⟩]),
          (⟨2024, 1, 2⟩, [⟨2000, "s", none⟩])] d =
          if (⟨2024, 1, 1⟩ : Date) = d then [(⟨2000, "t", none⟩ : Entry)]
          else if (⟨2024, 1, 2⟩ : Date) = d then [⟨2000, "s", none⟩] else [] := rfl
      have hR : entriesFor [(⟨2024, 1, 1⟩, [⟨2000, "t", none⟩])] d =
          if (⟨2024, 1, 1⟩ : Date) = d then [(⟨2000, "t", none⟩ : Entry)]
          else [] := rfl
      rw [hL, hR]
      by_cases hc : (⟨2024, 1, 1⟩ : Date) = d
      · rw [if_pos hc, if_pos hc]
      · rw [if_neg hc, if_neg hc, if_neg (fun he => hd he.symm)]
    have hmeet : (2000 : ℚ) ≤ dailyTotal
        [(⟨2024, 1, 1⟩, [⟨2000, "t", none⟩]), (⟨2024, 1, 2⟩, [⟨2000, "s", none⟩])]
        ⟨2024, 1, 2⟩ := by
      have hdt : dailyTotal [((⟨2024, 1, 1⟩ : Date), [(⟨2000, "t", none⟩ : Entry)]),
          (⟨2024, 1, 2⟩, [⟨2000, "s", none⟩])] ⟨2024, 1, 2⟩ = 2000 := by
        simp +decide [dailyTotal, entriesFor, entryTotal]
      rw [hdt]
    have h2 := (c3_current_streak [(⟨2024, 1, 1⟩, [⟨2000, "t", none⟩])]
        ⟨2024, 1, 2⟩ 2000).2
      [(⟨2024, 1, 1⟩, [⟨2000, "t", none⟩]), (⟨2024, 1, 2⟩, [⟨2000, "s", none⟩])]
      (by
        have h1 := prevIter_year_lower 365 (⟨2024, 1, 2⟩ : Date)
        have hy : (⟨2024, 1, 2⟩ : Date).year = 2024 := rfl
        omega)
      (by rw [hk1]; omega) hagree hmeet
    rw [h2, hk1]

theorem allMeet_nil (log : DailyLog) (goal : ℚ) : allMeet log goal [] :=
  fun x hx => absurd hx (List.not_mem_nil x)

theorem allMeet_append {log : DailyLog} {goal : ℚ} {l1 l2 : List Date}
    (h1 : allMeet log goal l1) (h2 : allMeet log goal l2) :
    allMeet log goal (l1 ++ l2) :=
  fun x hx => (List.mem_append.mp hx).elim (h1 x) (h2 x)

theorem allMeet_left {log : DailyLog} {goal : ℚ} {l1 l2 : List Date}
    (h : allMeet log goal (l1 ++ l2)) : allMeet log goal l1 :=
  fun x hx => h x (List.mem_append.mpr (Or.inl hx))

theorem allMeet_singleton {log : DailyLog} {goal : ℚ} {d : Date}
    (h : goal ≤ dailyTotal log d) : allMeet log goal [d] := by
  intro x hx
  rcases List.mem_singleton.mp hx with rfl
  exact h

theorem suffix_concat {r2 p : List Date} {d : Date} (h : r2 <:+ p ++ [d]) :
    r2 = [] ∨ ∃ r3, r3 <:+ p ∧ r2 = r3 ++ [d] := by
  rcases List.eq_nil_or_concat r2 with rfl | ⟨r3, a, rfl⟩
  · exact Or.inl rfl
  · right
    obtain ⟨t, ht⟩ := h
    rw [List.concat_eq_append, ← List.append_assoc] at ht
    obtain ⟨h1, h2⟩ := List.append_inj' ht rfl
    injection h2 with ha _
    exact ⟨r3, ⟨t, h1⟩, by rw [List.concat_eq_append, ha]⟩

theorem decomp_concat {p pre mid post : List Date} {d : Date}
    (h : p ++ [d] = pre ++ mid ++ post) :
    (∃ post2, p = pre ++ mid ++ post2) ∨
    mid = [] ∨
    (∃ mid2, mid = mid2 ++ [d] ∧ mid2 <:+ p) := by
  rcases List.eq_nil_or_concat post with rfl | ⟨post2, a, rfl⟩
  · rw [List.append_nil] at h
    rcases List.eq_nil_or_concat mid with rfl | ⟨mid2, b, rfl⟩
    · exact Or.inr (Or.inl rfl)
    · right; right
      rw [List.concat_eq_append, ← List.append_assoc] at h
      obtain ⟨h1, h2⟩ := List.append_inj' h rfl
      injection h2 with hb _
      refine ⟨mid2, ?_, ⟨pre, h1.symm⟩⟩
      rw [List.concat_eq_append, hb]
  · left
    have h3 : p ++ [d] = (pre ++ (mid ++ post2)) ++ [a] := by
      rw [h]
      simp only [List.concat_eq_append, List.append_assoc]
    obtain ⟨h1, h2⟩ := List.append_inj' h3 rfl
    exact ⟨post2, by rw [h1, List.append_assoc]⟩

theorem start_head (s : LSState) (r : List Date) (d : Date)
    (hrlen : r.length = s.curStreak) (hrstart : s.streakStart = r.head?) :
    (if s.curStreak = 0 then some d else s.streakStart) = (r ++ [d]).head? := by
  by_cases hc0 : s.curStreak = 0
  · rw [if_pos hc0]
    have hr : r = [] := List.length_eq_zero.mp (hrlen.trans hc0)
    rw [hr]
    rfl
  · rw [if_neg hc0]
    cases r with
    | nil => exact absurd hrlen.symm hc0
    | cons x xs => rw [hrstart]; rfl

theorem lsStep_miss (log : DailyLog) (goal : ℚ) (s : LSState) (d : Date)
    (h : ¬ goal ≤ dailyTotal log d) :
    lsStep log goal s d = ⟨s.maxStreak, 0, none, s.maxStart, s.maxEnd⟩ := by
  unfold lsStep
  rw [if_neg h]

theorem lsStep_hit_record (log : DailyLog) (goal : ℚ) (s : LSState) (d : Date)
    (h : goal ≤ dailyTotal log d) (h2 : s.maxStreak < s.curStreak + 1) :
    lsStep log goal s d = ⟨s.curStreak + 1, s.curStreak + 1,
      (if s.curStreak = 0 then some d else s.streakStart),
      (if s.curStreak = 0 then some d else s.streakStart), some d⟩ := by
  unfold lsStep
  rw [if_pos h]
  dsimp only
  rw [if_pos h2]

theorem lsStep_hit_norecord (log : DailyLog) (goal : ℚ) (s : LSState) (d : Date)
    (h : goal ≤ dailyTotal log d) (h2 : ¬ s.maxStreak < s.curStreak + 1) :
    lsStep log goal s d = ⟨s.maxStreak, s.curStreak + 1,
      (if s.curStreak = 0 then some d else s.streakStart),
      s.maxStart, s.maxEnd⟩ := by
  unfold lsStep
  rw [if_pos h]
  dsimp only
  rw [if_neg h2]

theorem lsInv_step (log : DailyLog) (goal : ℚ) (p : List Date) (s : LSState)
    (d : Date) (h : LSInv log goal p s) :
    LSInv log goal (p ++ [d]) (lsStep log goal s d) := by
  obtain ⟨⟨q, r, hp, hrmeet, hrlen, hrstart⟩, hsuf, hcm,
    ⟨pre, mid, post, hdec, hmmeet, hmlen, hmstart, hmend⟩, hmax⟩ := h
  by_cases hd : goal ≤ dailyTotal log d
  · have hrd : allMeet log goal (r ++ [d]) :=
      allMeet_append hrmeet (allMeet_singleton hd)
    have hsuf2 : ∀ r2, r2 <:+ p ++ [d] → allMeet log goal r2 →
        r2.length ≤ s.curStreak + 1 := by
      intro r2 hr2 hr2meet
      rcases suffix_concat hr2 with rfl | ⟨r3, hr3suf, rfl⟩
      · exact Nat.zero_le _
      · have h1 := hsuf r3 hr3suf (allMeet_left hr2meet)
        simp only [List.length_append, List.length_singleton]
        omega
    by_cases hrec : s.maxStreak < s.curStreak + 1
    · rw [lsStep_hit_record log goal s d hd hrec]
      refine ⟨⟨q, r ++ [d], ?_, hrd, ?_, ?_⟩, hsuf2, Nat.le_refl _,
        ⟨q, r ++ [d], [], ?_, hrd, ?_, ?_, ?_⟩, ?_⟩
      · rw [hp, List.append_assoc]
      · simp [List.length_append, hrlen]
      · exact start_head s r d hrlen hrstart
      · rw [List.append_nil, hp, List.append_assoc]
      · simp [List.length_append, hrlen]
      · exact start_head s r d hrlen hrstart
      · exact (List.getLast?_concat r).symm
      · intro pre2 mid2 post2 hdec2 hmeet2
        rcases decomp_concat hdec2 with ⟨post3, hpd⟩ | rfl | ⟨mid3, rfl, hsuf3⟩
        · have h1 := hmax pre2 mid2 post3 hpd hmeet2
          dsimp only
          omega
        · exact Nat.zero_le _
        · have h1 := hsuf mid3 hsuf3 (allMeet_left hmeet2)
          simp only [List.length_append, List.length_singleton]
          omega
    · rw [lsStep_hit_norecord log goal s d hd hrec]
      refine ⟨⟨q, r ++ [d], ?_, hrd, ?_, ?_⟩, hsuf2, by dsimp only; omega,
        ⟨pre, mid, post ++ [d], ?_, hmmeet, hmlen, hmstart, hmend⟩, ?_⟩
      · rw [hp, List.append_assoc]
      · simp [List.length_append, hrlen]
      · exact start_head s r d hrlen hrstart
      · rw [hdec, List.append_assoc]
      · intro pre2 mid2 post2 hdec2 hmeet2
        rcases decomp_concat hdec2 with ⟨post3, hpd⟩ | rfl | ⟨mid3, rfl, hsuf3⟩
        · exact hmax pre2 mid2 post3 hpd hmeet2
        · exact Nat.zero_le _
        · have h1 := hsuf mid3 hsuf3 (allMeet_left hmeet2)
          simp only [List.length_append, List.length_singleton]
          omega
  · rw [lsStep_miss log goal s d hd]
    refine ⟨⟨p ++ [d], [], ?_, allMeet_nil log goal, rfl, rfl⟩, ?_, Nat.zero_le _,
      ⟨pre, mid, post ++ [d], ?_, hmmeet, hmlen, hmstart, hmend⟩, ?_⟩
    · rw [List.append_nil]
    · intro r2 hr2 hr2meet
      rcases suffix_concat hr2 with rfl | ⟨r3, hr3suf, rfl⟩
      · exact Nat.le_refl 0
      · exact absurd (hr2meet d (List.mem_append.mpr
          (Or.inr (List.mem_singleton.mpr rfl)))) hd
    · rw [hdec, List.append_assoc]
    · intro pre2 mid2 post2 hdec2 hmeet2
      rcases decomp_concat hdec2 with ⟨post3, hpd⟩ | rfl | ⟨mid3, rfl, hsuf3⟩
      · exact hmax pre2 mid2 post3 hpd hmeet2
      · exact Nat.zero_le _
      · exact absurd (hmeet2 d (List.mem_append.mpr
          (Or.inr (List.mem_singleton.mpr rfl)))) hd

theorem lsInv_init (log : DailyLog) (goal : ℚ) :
    LSInv log goal [] ⟨0, 0, none, none, none⟩ := by
  refine ⟨⟨[], [], rfl, allMeet_nil log goal, rfl, rfl⟩, ?_, Nat.le_refl 0,
    ⟨[], [], [], rfl, allMeet_nil log goal, rfl, rfl, rfl⟩, ?_⟩
  · intro r2 hr2 _
    rw [List.suffix_nil.mp hr2]
    exact Nat.le_refl 0
  · intro pre mid post hdec _
    have h1 : mid = [] := by
      obtain ⟨h2, _⟩ := List.append_eq_nil.mp hdec.symm
      exact (List.append_eq_nil.mp h2).2
    rw [h1]
    exact Nat.le_refl 0

theorem lsInv_foldl (log : DailyLog) (goal : ℚ) :
    ∀ (l p : List Date) (s : LSState), LSInv log goal p s →
      LSInv log goal (p ++ l) (l.foldl (lsStep log goal) s) := by
  intro l
  induction l with
  | nil =>
    intro p s h
    rw [List.append_nil]
    exact h
  | cons d l2 ih =>
    intro p s h
    rw [List.foldl_cons, show p ++ d :: l2 = (p ++ [d]) ++ l2 by simp]
    exact ih (p ++ [d]) (lsStep log goal s d) (lsInv_step log goal p s d h)

/-- C2 (amended): longestStreak(goal) scans the date keys present in the
log in ascending order and returns the maximal run of consecutive
positions of that sorted key list whose dates each have daily total >=
goal, as {length, start_date, end_date}; only a logged date with total
below the goal breaks a run — a calendar gap between adjacent logged
dates does not break it. When the log is empty it returns
{0, null, null}. -/
theorem c2_longest_streak (log : DailyLog) (goal : ℚ) :
    (log = [] → get_longest_streak log goal = ⟨0, none, none⟩) ∧
    (sortedKeys log).Perm (logKeys log) ∧
    List.Pairwise (fun a b : Date => a ≤ b) (sortedKeys log) ∧
    (∀ pre mid post, sortedKeys log = pre ++ mid ++ post →
      allMeet log goal mid →
      mid.length ≤ (get_longest_streak log goal).length) ∧
    (log ≠ [] → ∃ pre mid post, sortedKeys log = pre ++ mid ++ post ∧
      allMeet log goal mid ∧
      mid.length = (get_longest_streak log goal).length ∧
      (get_longest_streak log goal).start_date = mid.head? ∧
      (get_longest_streak log goal).end_date = mid.getLast?) := by
  have hinv : LSInv log goal (sortedKeys log)
      ((sortedKeys log).foldl (lsStep log goal) ⟨0, 0, none, none, none⟩) := by
    have h0 := lsInv_foldl log goal (sortedKeys log) [] ⟨0, 0, none, none, none⟩
      (lsInv_init log goal)
    simpa using h0
  obtain ⟨hcur, hsuf, hcm,
    ⟨pre, mid, post, hdec, hmmeet, hmlen, hmstart, hmend⟩, hmax⟩ := hinv
  refine ⟨?_, List.perm_insertionSort _ _, List.sorted_insertionSort _ _, ?_, ?_⟩
  · intro hlog
    subst hlog
    rfl
  · intro pre2 mid2 post2 hdec2 hmeet2
    by_cases hlog : log = []
    · subst hlog
      have h1 : mid2 = [] := by
        have h0 : ([] : List Date) = pre2 ++ mid2 ++ post2 := hdec2
        obtain ⟨h2, _⟩ := List.append_eq_nil.mp h0.symm
        exact (List.append_eq_nil.mp h2).2
      rw [h1]
      exact Nat.zero_le _
    · have hne : ¬ log.isEmpty = true := by simpa [List.isEmpty_iff] using hlog
      unfold get_longest_streak
      rw [if_neg hne]
      dsimp only
      exact hmax pre2 mid2 post2 hdec2 hmeet2
  · intro hlog
    have hne : ¬ log.isEmpty = true := by simpa [List.isEmpty_iff] using hlog
    refine ⟨pre, mid, post, hdec, hmmeet, ?_, ?_, ?_⟩
    · unfold get_longest_streak
      rw [if_neg hne]
      exact hmlen
    · unfold get_longest_streak
      rw [if_neg hne]
      exact hmstart
    · unfold get_longest_streak
      rw [if_neg hne]
      exact hmend

/-- C2 counterexample: 2024-01-01 and 2024-01-03 both meet goal 2000 and
2024-01-02 was never logged, so under the claim — where a calendar span
with no key breaks the run like a goal-missing day — the maximal run
would have length 1; the code instead returns the streak
{2, 2024-01-01, 2024-01-03} spanning the gap. -/
theorem c2_counterexample :
    containsKey gapLog ⟨2024, 1, 2⟩ = false ∧
    (2000 : ℚ) ≤ dailyTotal gapLog ⟨2024, 1, 1⟩ ∧
    (2000 : ℚ) ≤ dailyTotal gapLog ⟨2024, 1, 3⟩ ∧
    get_longest_streak gapLog 2000 =
      ⟨2, some ⟨2024, 1, 1⟩, some ⟨2024, 1, 3⟩⟩ := by
  refine ⟨by decide, ?_, ?_, ?_⟩ <;>
    simp +decide [get_longest_streak, gapLog, sortedKeys, logKeys, lsStep,
      dailyTotal, entriesFor, entryTotal, List.insertionSort, List.orderedInsert]

/-- Witness for C2 at concrete inputs: the empty log returns
{0, null, null}, and the maximality bound instantiated at the trivial
decomposition of the gap log's sorted keys. -/
theorem c2_witness :
    get_longest_streak [] 2000 = ⟨0, none, none⟩ ∧
    ([] : List Date).length ≤ (get_longest_streak gapLog 2000).length :=
  ⟨(c2_longest_streak [] 2000).1 rfl,
   (c2_longest_streak gapLog 2000).2.2.2.1 (sortedKeys gapLog) [] []
     (by simp) (allMeet_nil gapLog 2000)⟩

theorem importFold_cons (log : DailyLog) (pr : Date × Entry)
    (prs : List (Date × Entry)) :
    importFold log (pr :: prs) = importFold (appendEntryTo log pr.1 pr.2) prs := rfl

theorem importRows_append (l1 l2 : List CsvRow) : ∀ log : DailyLog,
    importRows log (l1 ++ l2) =
      match importRows log l1 with
      | none => none
      | some log2 => importRows log2 l2 := by
  induction l1 with
  | nil => intro log; rfl
  | cons r rs ih =>
    intro log
    rw [List.cons_append]
    show (match parseRow r with
      | none => none
      | some (d, e) => importRows (appendEntryTo log d e) (rs ++ l2)) =
      (match (match parseRow r with
        | none => none
        | some (d, e) => importRows (appendEntryTo log d e) rs) with
       | none => none
       | some log2 => importRows log2 l2)
    cases parseRow r with
    | none => rfl
    | some pr =>
      obtain ⟨d0, e0⟩ := pr
      exact ih (appendEntryTo log d0 e0)

theorem importRows_block (d : Date) : ∀ (es : List Entry) (log : DailyLog),
    importRows log (es.map (fun e =>
      (⟨some d, some e.timestamp, some e.amount, some (e.note.getD "")⟩ : CsvRow))) =
    some (importFold log (es.map (fun e => (d, normalizeEntry e)))) := by
  intro es
  induction es with
  | nil => intro log; rfl
  | cons e es2 ih =>
    intro log
    rw [List.map_cons]
    show importRows (appendEntryTo log d (normalizeEntry e))
      (es2.map (fun e =>
        (⟨some d, some e.timestamp, some e.amount, some (e.note.getD "")⟩ : CsvRow))) = _
    rw [ih (appendEntryTo log d (normalizeEntry e))]
    rfl

theorem importRows_export (x : DailyLog) : ∀ (ks : List Date) (log : DailyLog),
    importRows log (ks.flatMap (fun d => (entriesFor x d).map (fun e =>
      (⟨some d, some e.timestamp, some e.amount, some (e.note.getD "")⟩ : CsvRow)))) =
    some (importFold log (ks.flatMap (fun d =>
      (entriesFor x d).map (fun e => (d, normalizeEntry e))))) := by
  intro ks
  induction ks with
  | nil => intro log; rfl
  | cons k ks2 ih =>
    intro log
    rw [List.flatMap_cons, List.flatMap_cons, importRows_append,
      importRows_block k (entriesFor x k) log]
    show importRows
      (importFold log ((entriesFor x k).map (fun e => (k, normalizeEntry e))))
      (ks2.flatMap (fun d => (entriesFor x d).map (fun e =>
        (⟨some d, some e.timestamp, some e.amount,
          some (e.note.getD "")⟩ : CsvRow)))) = _
    rw [ih (importFold log ((entriesFor x k).map (fun e => (k, normalizeEntry e))))]
    unfold importFold
    rw [List.foldl_append]

theorem entriesFor_importFold (d : Date) : ∀ (prs : List (Date × Entry)) (log : DailyLog),
    entriesFor (importFold log prs) d =
      entriesFor log d ++ (prs.filter (fun pr => decide (pr.1 = d))).map Prod.snd := by
  intro prs
  induction prs with
  | nil => intro log; simp [importFold]
  | cons pr prs2 ih =>
    intro log
    rw [importFold_cons, ih (appendEntryTo log pr.1 pr.2)]
    by_cases hd : pr.1 = d
    · subst hd
      rw [entriesFor_appendEntryTo_same,
        List.filter_cons_of_pos (by simp), List.map_cons]
      simp [List.append_assoc]
    · rw [entriesFor_appendEntryTo_other log pr.2 (fun he => hd he.symm),
        List.filter_cons_of_neg (by simp [hd])]

theorem filter_flatMap_blocks (x : DailyLog) (d : Date) :
    ∀ ks : List Date, ks.Nodup →
      ((ks.flatMap (fun k => (entriesFor x k).map
          (fun e => (k, normalizeEntry e)))).filter
        (fun pr => decide (pr.1 = d))) =
      (if d ∈ ks then (entriesFor x d).map (fun e => (d, normalizeEntry e))
       else []) := by
  intro ks
  induction ks with
  | nil => intro h; simp
  | cons k ks2 ih =>
    intro hnd
    obtain ⟨hknotin, hnd2⟩ := List.nodup_cons.mp hnd
    rw [List.flatMap_cons, List.filter_append, List.filter_map, ih hnd2]
    by_cases hk : k = d
    · subst hk
      rw [if_neg hknotin, if_pos (List.mem_cons_self k ks2)]
      have h1 : List.filter ((fun pr : Date × Entry => decide (pr.1 = k)) ∘
          (fun e => (k, normalizeEntry e))) (entriesFor x k) = entriesFor x k := by
        apply List.filter_eq_self.mpr
        intro e he
        simp
      rw [h1, List.append_nil]
    · have h1 : List.filter ((fun pr : Date × Entry => decide (pr.1 = d)) ∘
          (fun e => (k, normalizeEntry e))) (entriesFor x k) = [] := by
        apply List.filter_eq_nil_iff.mpr
        intro e he
        simp [hk]
      rw [h1]
      simp only [List.map_nil, List.nil_append]
      by_cases hd2 : d ∈ ks2
      · rw [if_pos hd2, if_pos (List.mem_cons_of_mem k hd2)]
      · rw [if_neg hd2, if_neg ?hnm]
        case hnm =>
          intro hmem
          rcases List.mem_cons.mp hmem with he | he
          · exact hk he.symm
          · exact hd2 he

theorem mem_sortedKeys_iff (log : DailyLog) (d : Date) :
    d ∈ sortedKeys log ↔ d ∈ logKeys log :=
  (List.perm_insertionSort (fun a b => a ≤ b) (logKeys log)).mem_iff

theorem not_mem_keys_entriesFor {log : DailyLog} {d : Date}
    (h : ¬ d ∈ logKeys log) : entriesFor log d = [] :=
  not_containsKey_entriesFor (decide_eq_false h)

theorem entriesFor_roundTrip (x : DailyLog) (hnd : (logKeys x).Nodup) (d : Date) :
    entriesFor (importFold [] (exportPairs x)) d =
      (entriesFor x d).map normalizeEntry := by
  rw [entriesFor_importFold d (exportPairs x) []]
  simp only [entriesFor, List.nil_append]
  unfold exportPairs
  rw [filter_flatMap_blocks x d (sortedKeys x)
    ((List.perm_insertionSort (fun a b => a ≤ b) (logKeys x)).symm.nodup hnd)]
  by_cases hmem : d ∈ sortedKeys x
  · rw [if_pos hmem, List.map_map]
    rfl
  · rw [if_neg hmem,
      not_mem_keys_entriesFor (fun h2 => hmem ((mem_sortedKeys_iff x d).mpr h2))]
    rfl

theorem totalEntries_append (l1 l2 : DailyLog) :
    totalEntries (l1 ++ l2) = totalEntries l1 + totalEntries l2 := by
  unfold totalEntries
  rw [List.map_append, List.sum_append]

theorem totalEntries_appendInPlace {d : Date} (e : Entry) :
    ∀ log : DailyLog, containsKey log d = true →
      totalEntries (appendInPlace d e log) = totalEntries log + 1 := by
  intro log
  induction log with
  | nil => intro h; simp [containsKey, logKeys] at h
  | cons p rest ih =>
    obtain ⟨k, es⟩ := p
    intro h
    rw [containsKey_cons] at h
    by_cases hk : k = d
    · subst hk
      rw [appendInPlace, if_pos rfl]
      unfold totalEntries
      simp only [List.map_cons, List.sum_cons, List.length_append,
        List.length_singleton]
      omega
    · rw [appendInPlace, if_neg hk]
      have hdk : decide (d = k) = false := decide_eq_false (fun h2 => hk h2.symm)
      rw [hdk, Bool.false_or] at h
      have h2 := ih h
      unfold totalEntries at h2 ⊢
      simp only [List.map_cons, List.sum_cons]
      omega

theorem totalEntries_appendEntryTo (log : DailyLog) (d : Date) (e : Entry) :
    totalEntries (appendEntryTo log d e) = totalEntries log + 1 := by
  unfold appendEntryTo
  by_cases hc : containsKey log d
  · rw [if_pos hc]
    exact totalEntries_appendInPlace e log hc
  · rw [if_neg hc, totalEntries_append]
    rfl

theorem totalEntries_importFold : ∀ (prs : List (Date × Entry)) (log : DailyLog),
    totalEntries (importFold log prs) = totalEntries log + prs.length := by
  intro prs
  induction prs with
  | nil => intro log; rfl
  | cons pr prs2 ih =>
    intro log
    rw [importFold_cons, ih (appendEntryTo log pr.1 pr.2),
      totalEntries_appendEntryTo]
    simp only [List.length_cons]
    omega

theorem sum_entriesFor_keys : ∀ x : DailyLog, (logKeys x).Nodup →
    ((logKeys x).map (fun k => (entriesFor x k).length)).sum = totalEntries x := by
  intro x
  induction x with
  | nil => intro h; rfl
  | cons p rest ih =>
    obtain ⟨k, es⟩ := p
    intro hnd
    have hnd3 : (k :: logKeys rest).Nodup := hnd
    obtain ⟨hknot, hnd2⟩ := List.nodup_cons.mp hnd3
    show ((k :: logKeys rest).map
      (fun k2 => (entriesFor ((k, es) :: rest) k2).length)).sum = _
    rw [List.map_cons, List.sum_cons]
    have hhead : entriesFor ((k, es) :: rest) k = es := by
      rw [entriesFor, if_pos rfl]
    have htail : (logKeys rest).map
        (fun k2 => (entriesFor ((k, es) :: rest) k2).length) =
        (logKeys rest).map (fun k2 => (entriesFor rest k2).length) := by
      apply List.map_congr_left
      intro k2 hk2
      have hne : k ≠ k2 := fun he => hknot (he ▸ hk2)
      rw [entriesFor, if_neg hne]
    rw [hhead, htail, ih hnd2]
    rfl

theorem length_exportPairs (x : DailyLog) (hnd : (logKeys x).Nodup) :
    (exportPairs x).length = totalEntries x := by
  unfold exportPairs
  rw [List.length_flatMap]
  have h1 : (sortedKeys x).map (List.length ∘ (fun k =>
      (entriesFor x k).map (fun e => (k, normalizeEntry e)))) =
      (sortedKeys x).map (fun k => (entriesFor x k).length) := by
    apply List.map_congr_left
    intro k hk
    simp
  rw [h1]
  have h2 : ((sortedKeys x).map (fun k => (entriesFor x k).length)).sum =
      ((logKeys x).map (fun k => (entriesFor x k).length)).sum :=
    ((List.perm_insertionSort (fun a b => a ≤ b) (logKeys x)).map
      (fun k => (entriesFor x k).length)).sum_eq
  rw [h2]
  exact sum_entriesFor_keys x hnd

/-- C1: exporting a log whose dict keys are unique to CSV and importing
the produced rows starting from an empty durable log succeeds and
reconstructs a log with the same total entry count, the same per-date
entry counts and per-date totals, and every entry's note preserved
verbatim — an absent note round-trips to the empty string. -/
theorem c1_csv_round_trip (x : DailyLog) (hnd : (logKeys x).Nodup) :
    ∃ y : DailyLog,
      import_data_from_csv (some (export_rows x)) DiskDoc.missing =
        (true, DiskDoc.stored y) ∧
      totalEntries y = totalEntries x ∧
      (∀ d, dailyTotal y d = dailyTotal x d) ∧
      (∀ d, (entriesFor y d).length = (entriesFor x d).length) ∧
      (∀ d, (entriesFor y d).map Entry.note =
        (entriesFor x d).map (fun e => some (e.note.getD ""))) := by
  refine ⟨importFold [] (exportPairs x), ?_, ?_, ?_, ?_, ?_⟩
  · show (match importRows ([] : DailyLog) (export_rows x) with
      | none => (false, DiskDoc.missing)
      | some merged => (true, save_water_log merged DiskDoc.missing)) =
      (true, DiskDoc.stored (importFold [] (exportPairs x)))
    unfold export_rows exportPairs
    rw [importRows_export x (sortedKeys x) []]
    rfl
  · rw [totalEntries_importFold (exportPairs x) [], length_exportPairs x hnd]
    simp [totalEntries]
  · intro d
    unfold dailyTotal
    rw [entriesFor_roundTrip x hnd d]
    unfold entryTotal
    rw [List.map_map]
    rfl
  · intro d
    rw [entriesFor_roundTrip x hnd d, List.length_map]
  · intro d
    rw [entriesFor_roundTrip x hnd d, List.map_map]
    rfl

/-- Witness for C1 at a concrete input: the export/import round trip of
rtLog succeeds, and rtLog has two entries. -/
theorem c1_witness :
    (import_data_from_csv (some (export_rows rtLog)) DiskDoc.missing).1 = true ∧
    totalEntries rtLog = 2 := by
  constructor
  · obtain ⟨y, h1, _⟩ := c1_csv_round_trip rtLog (by decide)
    rw [h1]
  · rfl
